import Mathlib

/-!
Verification development for the PatentX repository (src/AlphaPatent.py).

The embedded core is the mind-map logic of `MainWindow.show_mind_map`:
  * classification parsing (split on the first `>`; strip; default
    `"Uncategorized"` when the stripped classification is empty),
  * the networkx graph construction loop (guarded `add_node` for topic and
    subtopic nodes, unconditional `add_node` for patent nodes, idempotent
    undirected `add_edge`),
  * the click handler `on_click` (linear scan for the closest node, strict
    threshold `0.1`, action only for patent nodes).

Python strings are modelled as `List Char`.  The networkx `Graph` is
modelled as an insertion-ordered association list of nodes (id, kind) plus
an insertion-ordered list of undirected edges; `add_node` on an existing id
updates the stored kind exactly as networkx updates the `type` attribute.
Click coordinates are modelled over `ℚ`; since real `sqrt` is strictly
monotone on nonnegative inputs, the comparisons `sqrt d1 < sqrt d2` and
`sqrt d < threshold` of the Python code are modelled faithfully by the
squared-distance comparisons `d1 < d2` and `d < threshold^2`.
-/

namespace PatentX

abbrev PyStr := List Char

/-- Whitespace tested by Python `str.strip()` (ASCII subset). -/
def pyIsSpace (c : Char) : Bool :=
  c == ' ' || c == '\t' || c == '\n' || c == '\r' || c == Char.ofNat 11 || c == Char.ofNat 12

/-- Combination step for dropping trailing whitespace: a character is kept
unless everything after it was dropped and it is itself whitespace. -/
def stripRightStep (c : Char) : PyStr → PyStr
  | [] => if pyIsSpace c then [] else [c]
  | x :: xs => c :: x :: xs

/-- Right-hand side of Python `str.strip()`: drop trailing whitespace. -/
def stripRight : PyStr → PyStr
  | [] => []
  | c :: cs => stripRightStep c (stripRight cs)

/-- Python `str.strip()` with default arguments. -/
def strip (s : PyStr) : PyStr :=
  stripRight (s.dropWhile pyIsSpace)

/-- Python `">" in classification`. -/
def hasSep : PyStr → Bool
  | [] => false
  | c :: cs => if c = '>' then true else hasSep cs

/-- Python `classification.split(">", 1)`: split at the first occurrence of
the separator only; the remainder (which may itself contain further
separators) is returned whole as the second component. -/
def split_first : PyStr → PyStr × PyStr
  | [] => ([], [])
  | c :: cs =>
    if c = '>' then ([], cs)
    else ((split_first cs).1.cons c, (split_first cs).2)

def uncategorized : PyStr := "Uncategorized".data

/-- Lines 103-107 of src/AlphaPatent.py: derive `(topic, subtopic)` from a
classification string.  In the separator branch both parts are stripped; in
the other branch the stripped classification defaults to `"Uncategorized"`
when empty (Python `classification.strip() or "Uncategorized"`). -/
def parse_classification (c : PyStr) : PyStr × Option PyStr :=
  if hasSep c then
    (strip (split_first c).1, some (strip (split_first c).2))
  else
    (if strip c = [] then uncategorized else strip c, none)

/-- Python truthiness of `subtopic` at line 112: `None` and the empty string
are both falsy, so an empty stripped right part behaves like no subtopic. -/
def effective_subtopic (c : PyStr) : Option PyStr :=
  match (parse_classification c).2 with
  | some s => if s = [] then none else some s
  | none => none

inductive NodeKind where
  | topic
  | subtopic
  | patent
deriving DecidableEq, Repr

/-- The networkx graph: nodes in insertion order with their `type`
attribute, and undirected edges in insertion order. -/
structure Graph where
  nodes : List (PyStr × NodeKind)
  edges : List (PyStr × PyStr)
deriving DecidableEq, Repr

def emptyGraph : Graph := ⟨[], []⟩

def has_nodeL : List (PyStr × NodeKind) → PyStr → Bool
  | [], _ => false
  | p :: rest, n => if p.1 = n then true else has_nodeL rest n

/-- networkx `G.has_node`. -/
def has_node (g : Graph) (n : PyStr) : Bool := has_nodeL g.nodes n

/-- Attribute update performed by networkx `add_node` on an existing id. -/
def updateKind (l : List (PyStr × NodeKind)) (nid : PyStr) (k : NodeKind) :
    List (PyStr × NodeKind) :=
  l.map fun p => if p.1 = nid then (nid, k) else p

/-- networkx `G.nodes[n].get('type')`: kind stored at the first entry. -/
def lookupKind : List (PyStr × NodeKind) → PyStr → Option NodeKind
  | [], _ => none
  | p :: rest, n => if p.1 = n then some p.2 else lookupKind rest n

/-- networkx `G.add_node(nid, type=k)`: appends a fresh node, or silently
updates the stored attribute when the id is already present. -/
def add_node (g : Graph) (nid : PyStr) (k : NodeKind) : Graph :=
  if has_node g nid then { g with nodes := updateKind g.nodes nid k }
  else { g with nodes := g.nodes ++ [(nid, k)] }

def has_edgeL : List (PyStr × PyStr) → PyStr → PyStr → Bool
  | [], _, _ => false
  | e :: rest, x, y =>
    if (e.1 = x ∧ e.2 = y) ∨ (e.1 = y ∧ e.2 = x) then true else has_edgeL rest x y

/-- networkx `G.add_edge(x, y)` on a plain `Graph`: undirected, idempotent. -/
def add_edge (g : Graph) (x y : PyStr) : Graph :=
  if has_edgeL g.edges x y then g else { g with edges := g.edges ++ [(x, y)] }

/-- Body of the loop at lines 101-123 of src/AlphaPatent.py for one record
`(patent id, classification)`. -/
def show_mind_map_step (g : Graph) (r : PyStr × PyStr) : Graph :=
  let t := (parse_classification r.2).1
  let g1 := if has_node g t then g else add_node g t .topic
  match effective_subtopic r.2 with
  | some s =>
    let g2 := if has_node g1 s then g1 else add_node g1 s .subtopic
    let g3 := add_edge g2 t s
    let g4 := add_node g3 r.1 .patent
    add_edge g4 s r.1
  | none =>
    let g2 := add_node g1 r.1 .patent
    add_edge g2 t r.1

/-- The whole graph-building loop of `show_mind_map`, over the records of
`self.data` in insertion order. -/
def show_mind_map_graph (records : List (PyStr × PyStr)) : Graph :=
  records.foldl show_mind_map_step emptyGraph

/-- Node-id membership in the built graph. -/
def NodeMem (g : Graph) (n : PyStr) : Prop := n ∈ g.nodes.map Prod.fst

instance (g : Graph) (n : PyStr) : Decidable (NodeMem g n) :=
  inferInstanceAs (Decidable (n ∈ g.nodes.map Prod.fst))

/-- Undirected edge membership in the built graph. -/
def EdgeMem (g : Graph) (a b : PyStr) : Prop := (a, b) ∈ g.edges ∨ (b, a) ∈ g.edges

instance (g : Graph) (a b : PyStr) : Decidable (EdgeMem g a b) :=
  inferInstanceAs (Decidable (_ ∨ _))

/-- The record node `p` sits at graph distance exactly 1 or exactly 2 from
the node `t`: the nodes are distinct, and either there is a direct edge or a
two-edge path through some intermediate node. -/
def PathLen12 (g : Graph) (t p : PyStr) : Prop :=
  p ≠ t ∧ (EdgeMem g t p ∨ ∃ s, EdgeMem g t s ∧ EdgeMem g s p)

/-- Squared Euclidean distance.  The Python code compares
`np.sqrt(dx**2 + dy**2)`; since `sqrt` is strictly monotone on nonnegative
reals, comparing squared distances is equivalent. -/
def dist2 (p q : ℚ × ℚ) : ℚ :=
  (p.1 - q.1) * (p.1 - q.1) + (p.2 - q.2) * (p.2 - q.2)

/-- The scanning loop of `on_click` (lines 149-155 of src/AlphaPatent.py):
`closest_node = None; min_dist = inf; for node, (x, y) in pos.items(): ...`.
The accumulator `none` stands for `(None, inf)`; the update condition is the
strict `dist < min_dist`, so on ties the earlier node is kept. -/
def on_click_scan (click : ℚ × ℚ) :
    Option (PyStr × ℚ) → List (PyStr × ℚ × ℚ) → Option (PyStr × ℚ)
  | acc, [] => acc
  | acc, (n, p) :: rest =>
    match acc with
    | none => on_click_scan click (some (n, dist2 click p)) rest
    | some (m, dm) =>
      if dist2 click p < dm then on_click_scan click (some (n, dist2 click p)) rest
      else on_click_scan click (some (m, dm)) rest

/-- One combination step of the structural scan: the element `(n, d)` is
kept unless the best of the remaining elements is strictly closer. -/
def closestStep (n : PyStr) (d : ℚ) : Option (PyStr × ℚ) → Option (PyStr × ℚ)
  | none => some (n, d)
  | some (m, dm) => if dm < d then some (m, dm) else some (n, d)

/-- Structural-recursion formulation of the same scan, used for proofs.
The head survives exactly when no later element is strictly closer. -/
def closestAux (click : ℚ × ℚ) : List (PyStr × ℚ × ℚ) → Option (PyStr × ℚ)
  | [] => none
  | (n, p) :: rest => closestStep n (dist2 click p) (closestAux click rest)

/-- The hit-test of `on_click`: scan for the closest node, then the strict
threshold check `min_dist < threshold` (line 157; threshold 0.1 in the
code).  `thr2` is the squared threshold. -/
def hit_test (click : ℚ × ℚ) (pos : List (PyStr × ℚ × ℚ)) (thr2 : ℚ) : Option PyStr :=
  match on_click_scan click none pos with
  | some (n, dm) => if dm < thr2 then some n else none
  | none => none

/-- Externally visible effect of a click: which patent PDF load is
triggered, and whether the mind-map dialog is closed. -/
structure ClickResult where
  loadPdf : Option PyStr
  closeDialog : Bool
deriving DecidableEq, Repr

def noAction : ClickResult := ⟨none, false⟩

/-- Lines 145-161 of src/AlphaPatent.py: resolve the click, and only when
the resolved node has `type == 'patent'` load its PDF and close the dialog;
in every other case nothing happens.  The code threshold is `0.1`, so the
squared threshold is `1/100`. -/
def on_click (g : Graph) (pos : List (PyStr × ℚ × ℚ)) (click : ℚ × ℚ) : ClickResult :=
  match hit_test click pos (1 / 100) with
  | some n => if lookupKind g.nodes n = some .patent then ⟨some n, true⟩ else noAction
  | none => noAction

-- sanity checks (spec section 8 scenario)
example :
    show_mind_map_graph [("P4".data, "".data)] =
      ⟨[(uncategorized, .topic), ("P4".data, .patent)], [(uncategorized, "P4".data)]⟩ := by
  decide

example :
    show_mind_map_graph [("P1".data, "A>B".data), ("P2".data, "A>B".data), ("P3".data, "C".data)] =
      ⟨[("A".data, .topic), ("B".data, .subtopic), ("P1".data, .patent),
        ("P2".data, .patent), ("C".data, .topic), ("P3".data, .patent)],
       [("A".data, "B".data), ("B".data, "P1".data), ("B".data, "P2".data),
        ("C".data, "P3".data)]⟩ := by
  decide

example : parse_classification " A > B > C ".data = ("A".data, some ("B > C".data)) := by decide

example :
    hit_test (0, 0) [("A".data, (0, 0)), ("P1".data, (1, 0))] (1 / 100) = some "A".data := by
  norm_num [hit_test, on_click_scan, dist2]

example : hit_test (0, 0) [("A".data, (5, 0))] (1 / 100) = none := by
  norm_num [hit_test, on_click_scan, dist2]

example :
    on_click (show_mind_map_graph [("P1".data, "A".data)])
      [("A".data, (0, 0)), ("P1".data, (1, 0))] (0, 0) = noAction := by
  norm_num [on_click, hit_test, on_click_scan, dist2]
  decide

example :
    on_click (show_mind_map_graph [("P1".data, "A".data)])
      [("A".data, (0, 0)), ("P1".data, (1, 0))] (1, 0) = ⟨some "P1".data, true⟩ := by
  norm_num [on_click, hit_test, on_click_scan, dist2]
  decide

/-- Node-id contribution of a single record to the built graph. -/
def contribN (r : PyStr × PyStr) (n : PyStr) : Prop :=
  n = (parse_classification r.2).1 ∨ effective_subtopic r.2 = some n ∨ n = r.1

/-- Equality of `{a, b}` and `{x, y}` as unordered pairs. -/
def pairEq (a b x y : PyStr) : Prop := (a = x ∧ b = y) ∨ (a = y ∧ b = x)

/-- Edge contribution of a single record to the built graph. -/
def contribE (r : PyStr × PyStr) (a b : PyStr) : Prop :=
  match effective_subtopic r.2 with
  | some s => pairEq a b (parse_classification r.2).1 s ∨ pairEq a b s r.1
  | none => pairEq a b (parse_classification r.2).1 r.1

theorem has_nodeL_iff (l : List (PyStr × NodeKind)) (n : PyStr) :
    has_nodeL l n = true ↔ n ∈ l.map Prod.fst := by
  induction l with
  | nil => simp [has_nodeL]
  | cons p rest ih =>
    simp only [has_nodeL, List.map_cons, List.mem_cons]
    by_cases h : p.1 = n
    · rw [if_pos h]
      constructor
      · intro _
        exact Or.inl h.symm
      · intro _
        rfl
    · rw [if_neg h, ih]
      constructor
      · exact Or.inr
      · rintro (hn | hn)
        · exact absurd hn.symm h
        · exact hn

theorem updateKind_map_fst (l : List (PyStr × NodeKind)) (nid : PyStr) (k : NodeKind) :
    (updateKind l nid k).map Prod.fst = l.map Prod.fst := by
  induction l with
  | nil => rfl
  | cons p rest ih =>
    simp only [updateKind, List.map_cons] at *
    by_cases h : p.1 = nid
    · simp [h, ih]
    · simp [h, ih]

theorem add_node_edges (g : Graph) (nid : PyStr) (k : NodeKind) :
    (add_node g nid k).edges = g.edges := by
  unfold add_node
  split <;> rfl

theorem add_edge_nodes (g : Graph) (x y : PyStr) :
    (add_edge g x y).nodes = g.nodes := by
  unfold add_edge
  split <;> rfl

theorem NodeMem_add_node (g : Graph) (nid : PyStr) (k : NodeKind) (n : PyStr) :
    NodeMem (add_node g nid k) n ↔ NodeMem g n ∨ n = nid := by
  unfold NodeMem add_node
  split
  · rename_i h
    rw [show ({ g with nodes := updateKind g.nodes nid k } : Graph).nodes = updateKind g.nodes nid k from rfl,
      updateKind_map_fst]
    constructor
    · exact Or.inl
    · rintro (hn | rfl)
      · exact hn
      · exact (has_nodeL_iff _ _).mp h
  · show n ∈ (g.nodes ++ [(nid, k)]).map Prod.fst ↔ n ∈ g.nodes.map Prod.fst ∨ n = nid
    rw [List.map_append, List.mem_append]
    simp only [List.map_cons, List.map_nil, List.mem_singleton]

theorem NodeMem_guard (g : Graph) (t : PyStr) (k : NodeKind) (n : PyStr) :
    NodeMem (if has_node g t then g else add_node g t k) n ↔ NodeMem g n ∨ n = t := by
  split
  · rename_i h
    constructor
    · exact Or.inl
    · rintro (hn | rfl)
      · exact hn
      · exact (has_nodeL_iff _ _).mp h
  · exact NodeMem_add_node g t k n

theorem NodeMem_add_edge (g : Graph) (x y n : PyStr) :
    NodeMem (add_edge g x y) n ↔ NodeMem g n := by
  unfold NodeMem
  rw [add_edge_nodes]

theorem EdgeMem_add_node (g : Graph) (nid : PyStr) (k : NodeKind) (a b : PyStr) :
    EdgeMem (add_node g nid k) a b ↔ EdgeMem g a b := by
  unfold EdgeMem
  rw [add_node_edges]

theorem EdgeMem_guard (g : Graph) (t : PyStr) (k : NodeKind) (a b : PyStr) :
    EdgeMem (if has_node g t then g else add_node g t k) a b ↔ EdgeMem g a b := by
  split
  · exact Iff.rfl
  · exact EdgeMem_add_node g t k a b

theorem has_edgeL_iff (es : List (PyStr × PyStr)) (x y : PyStr) :
    has_edgeL es x y = true ↔ (x, y) ∈ es ∨ (y, x) ∈ es := by
  induction es with
  | nil => simp [has_edgeL]
  | cons e rest ih =>
    simp only [has_edgeL, List.mem_cons]
    by_cases h : (e.1 = x ∧ e.2 = y) ∨ (e.1 = y ∧ e.2 = x)
    · simp only [if_pos h, true_iff]
      rcases h with ⟨h1, h2⟩ | ⟨h1, h2⟩
      · exact Or.inl (Or.inl (by rw [← h1, ← h2]))
      · exact Or.inr (Or.inl (by rw [← h1, ← h2]))
    · simp only [if_neg h, ih]
      constructor
      · rintro (hm | hm)
        · exact Or.inl (Or.inr hm)
        · exact Or.inr (Or.inr hm)
      · rintro ((hm | hm) | (hm | hm))
        · exact absurd (Or.inl ⟨congrArg Prod.fst hm.symm, congrArg Prod.snd hm.symm⟩) h
        · exact Or.inl hm
        · exact absurd (Or.inr ⟨congrArg Prod.fst hm.symm, congrArg Prod.snd hm.symm⟩) h
        · exact Or.inr hm

theorem EdgeMem_add_edge (g : Graph) (x y a b : PyStr) :
    EdgeMem (add_edge g x y) a b ↔ EdgeMem g a b ∨ pairEq a b x y := by
  unfold EdgeMem add_edge pairEq
  split
  · rename_i h
    constructor
    · exact Or.inl
    · rintro (hm | (⟨rfl, rfl⟩ | ⟨rfl, rfl⟩))
      · exact hm
      · exact (has_edgeL_iff _ _ _).mp h
      · exact ((has_edgeL_iff _ _ _).mp h).symm
  · simp only [show (({ g with edges := g.edges ++ [(x, y)] } : Graph).edges) = g.edges ++ [(x, y)] from rfl,
      List.mem_append, List.mem_singleton, Prod.mk.injEq]
    tauto

theorem NodeMem_step (g : Graph) (r : PyStr × PyStr) (n : PyStr) :
    NodeMem (show_mind_map_step g r) n ↔ NodeMem g n ∨ contribN r n := by
  unfold show_mind_map_step contribN
  cases h : effective_subtopic r.2 with
  | none =>
    simp only [h, NodeMem_add_edge, NodeMem_add_node, NodeMem_guard]
    constructor
    · rintro ((hm | hm) | hm) <;> tauto
    · rintro (hm | (hm | hm | hm)) <;> simp_all
  | some s =>
    simp only [h, NodeMem_add_edge, NodeMem_add_node, NodeMem_guard, Option.some.injEq]
    constructor
    · rintro (((hm | hm) | hm) | hm) <;> tauto
    · rintro (hm | (hm | hm | hm)) <;> simp_all

theorem EdgeMem_step (g : Graph) (r : PyStr × PyStr) (a b : PyStr) :
    EdgeMem (show_mind_map_step g r) a b ↔ EdgeMem g a b ∨ contribE r a b := by
  unfold show_mind_map_step contribE
  cases h : effective_subtopic r.2 with
  | none =>
    simp only [h, EdgeMem_add_edge, EdgeMem_add_node, EdgeMem_guard]
  | some s =>
    simp only [h, EdgeMem_add_edge, EdgeMem_add_node, EdgeMem_guard]
    tauto

theorem NodeMem_fold (l : List (PyStr × PyStr)) :
    ∀ (g : Graph) (n : PyStr),
      NodeMem (l.foldl show_mind_map_step g) n ↔ NodeMem g n ∨ ∃ r ∈ l, contribN r n := by
  induction l with
  | nil => simp
  | cons r rest ih =>
    intro g n
    simp only [List.foldl_cons, ih, NodeMem_step, List.mem_cons]
    constructor
    · rintro ((hm | hm) | ⟨r', hr', hc⟩)
      · exact Or.inl hm
      · exact Or.inr ⟨r, Or.inl rfl, hm⟩
      · exact Or.inr ⟨r', Or.inr hr', hc⟩
    · rintro (hm | ⟨r', (rfl | hr'), hc⟩)
      · exact Or.inl (Or.inl hm)
      · exact Or.inl (Or.inr hc)
      · exact Or.inr ⟨r', hr', hc⟩

theorem EdgeMem_fold (l : List (PyStr × PyStr)) :
    ∀ (g : Graph) (a b : PyStr),
      EdgeMem (l.foldl show_mind_map_step g) a b ↔ EdgeMem g a b ∨ ∃ r ∈ l, contribE r a b := by
  induction l with
  | nil => simp
  | cons r rest ih =>
    intro g a b
    simp only [List.foldl_cons, ih, EdgeMem_step, List.mem_cons]
    constructor
    · rintro ((hm | hm) | ⟨r', hr', hc⟩)
      · exact Or.inl hm
      · exact Or.inr ⟨r, Or.inl rfl, hm⟩
      · exact Or.inr ⟨r', Or.inr hr', hc⟩
    · rintro (hm | ⟨r', (rfl | hr'), hc⟩)
      · exact Or.inl (Or.inl hm)
      · exact Or.inl (Or.inr hc)
      · exact Or.inr ⟨r', hr', hc⟩

theorem NodeMem_build (l : List (PyStr × PyStr)) (n : PyStr) :
    NodeMem (show_mind_map_graph l) n ↔ ∃ r ∈ l, contribN r n := by
  unfold show_mind_map_graph
  rw [NodeMem_fold]
  simp [NodeMem, emptyGraph]

theorem EdgeMem_build (l : List (PyStr × PyStr)) (a b : PyStr) :
    EdgeMem (show_mind_map_graph l) a b ↔ ∃ r ∈ l, contribE r a b := by
  unfold show_mind_map_graph
  rw [EdgeMem_fold]
  simp [EdgeMem, emptyGraph]

theorem exists_kind_of_NodeMem (g : Graph) (n : PyStr) (h : NodeMem g n) :
    ∃ k, (n, k) ∈ g.nodes := by
  rcases List.mem_map.mp h with ⟨p, hp, hfst⟩
  refine ⟨p.2, ?_⟩
  rwa [show (n, p.2) = p from by rw [← hfst]]

theorem add_node_nodup (g : Graph) (nid : PyStr) (k : NodeKind)
    (h : (g.nodes.map Prod.fst).Nodup) :
    ((add_node g nid k).nodes.map Prod.fst).Nodup := by
  unfold add_node
  split
  · rwa [show ({ g with nodes := updateKind g.nodes nid k } : Graph).nodes = updateKind g.nodes nid k from rfl,
      updateKind_map_fst]
  · rename_i hns
    rw [show ({ g with nodes := g.nodes ++ [(nid, k)] } : Graph).nodes = g.nodes ++ [(nid, k)] from rfl,
      List.map_append]
    rw [List.nodup_append]
    refine ⟨h, List.nodup_singleton nid, ?_⟩
    intro x hx hx1
    rw [List.map_cons, List.map_nil, List.mem_singleton] at hx1
    subst hx1
    exact hns ((has_nodeL_iff _ _).mpr hx)

theorem guard_nodup (g : Graph) (t : PyStr) (k : NodeKind)
    (h : (g.nodes.map Prod.fst).Nodup) :
    (((if has_node g t then g else add_node g t k) : Graph).nodes.map Prod.fst).Nodup := by
  split
  · exact h
  · exact add_node_nodup g t k h

theorem step_nodup (g : Graph) (r : PyStr × PyStr)
    (h : (g.nodes.map Prod.fst).Nodup) :
    ((show_mind_map_step g r).nodes.map Prod.fst).Nodup := by
  unfold show_mind_map_step
  cases he : effective_subtopic r.2 with
  | none =>
    rw [add_edge_nodes]
    exact add_node_nodup _ _ _ (guard_nodup g _ _ h)
  | some s =>
    rw [add_edge_nodes]
    apply add_node_nodup
    rw [add_edge_nodes]
    exact guard_nodup _ _ _ (guard_nodup g _ _ h)

theorem build_nodup (l : List (PyStr × PyStr)) :
    ((show_mind_map_graph l).nodes.map Prod.fst).Nodup := by
  unfold show_mind_map_graph
  have : ∀ (g : Graph), (g.nodes.map Prod.fst).Nodup →
      ((l.foldl show_mind_map_step g).nodes.map Prod.fst).Nodup := by
    induction l with
    | nil => intro g hg; exact hg
    | cons r rest ih =>
      intro g hg
      exact ih _ (step_nodup g r hg)
  exact this emptyGraph (by simp [emptyGraph])

theorem add_node_entry_mem (g : Graph) (nid : PyStr) (k : NodeKind)
    (s0 : PyStr) (k0 : NodeKind) (hm : (s0, k0) ∈ g.nodes) (hne : s0 ≠ nid) :
    (s0, k0) ∈ (add_node g nid k).nodes := by
  unfold add_node
  split
  · show (s0, k0) ∈ updateKind g.nodes nid k
    unfold updateKind
    have hfix : (if ((s0, k0) : PyStr × NodeKind).1 = nid then (nid, k) else (s0, k0)) = (s0, k0) :=
      if_neg hne
    rw [← hfix]
    exact List.mem_map_of_mem _ hm
  · exact List.mem_append_left _ hm

theorem guard_entry_mem (g : Graph) (t : PyStr) (k : NodeKind)
    (s0 : PyStr) (k0 : NodeKind) (hm : (s0, k0) ∈ g.nodes) :
    (s0, k0) ∈ ((if has_node g t then g else add_node g t k) : Graph).nodes := by
  split
  · exact hm
  · rename_i h
    unfold add_node
    rw [if_neg h]
    exact List.mem_append_left _ hm

theorem step_entry_mem (g : Graph) (r : PyStr × PyStr)
    (s0 : PyStr) (k0 : NodeKind) (hm : (s0, k0) ∈ g.nodes) (hne : r.1 ≠ s0) :
    (s0, k0) ∈ (show_mind_map_step g r).nodes := by
  unfold show_mind_map_step
  cases he : effective_subtopic r.2 with
  | none =>
    rw [add_edge_nodes]
    exact add_node_entry_mem _ _ _ _ _ (guard_entry_mem _ _ _ _ _ hm) (Ne.symm hne)
  | some s =>
    rw [add_edge_nodes]
    apply add_node_entry_mem _ _ _ _ _ _ (Ne.symm hne)
    rw [add_edge_nodes]
    exact guard_entry_mem _ _ _ _ _ (guard_entry_mem _ _ _ _ _ hm)

theorem fold_entry_mem (l : List (PyStr × PyStr)) (s0 : PyStr) (k0 : NodeKind) :
    ∀ (g : Graph), (s0, k0) ∈ g.nodes → (∀ r ∈ l, r.1 ≠ s0) →
      (s0, k0) ∈ (l.foldl show_mind_map_step g).nodes := by
  induction l with
  | nil => intro g hm _; exact hm
  | cons r rest ih =>
    intro g hm hl
    exact ih _ (step_entry_mem g r s0 k0 hm (hl r (List.mem_cons_self r rest)))
      (fun r' hr' => hl r' (List.mem_cons_of_mem r hr'))

/-- Kind invariant used for claim C3: every node entry with id `s0` carries
the subtopic kind. -/
def SubKindInv (g : Graph) (s0 : PyStr) : Prop :=
  ∀ k, (s0, k) ∈ g.nodes → k = NodeKind.subtopic

theorem SubKindInv_add_node_ne (g : Graph) (nid : PyStr) (k : NodeKind) (s0 : PyStr)
    (hinv : SubKindInv g s0) (hne : nid ≠ s0) : SubKindInv (add_node g nid k) s0 := by
  intro k' hk'
  unfold add_node at hk'
  split at hk'
  · rcases List.mem_map.mp hk' with ⟨p, hp, hfp⟩
    by_cases hcond : p.1 = nid
    · rw [if_pos hcond] at hfp
      exact absurd (congrArg Prod.fst hfp) hne
    · rw [if_neg hcond] at hfp
      exact hinv k' (hfp ▸ hp)
  · rcases List.mem_append.mp hk' with hm | hm
    · exact hinv k' hm
    · rw [List.mem_singleton, Prod.mk.injEq] at hm
      exact absurd hm.1.symm hne

theorem SubKindInv_add_subtopic (g : Graph) (nid : PyStr) (s0 : PyStr)
    (hinv : SubKindInv g s0) : SubKindInv (add_node g nid .subtopic) s0 := by
  intro k' hk'
  unfold add_node at hk'
  split at hk'
  · rcases List.mem_map.mp hk' with ⟨p, hp, hfp⟩
    by_cases hcond : p.1 = nid
    · rw [if_pos hcond] at hfp
      exact (congrArg Prod.snd hfp).symm
    · rw [if_neg hcond] at hfp
      exact hinv k' (hfp ▸ hp)
  · rcases List.mem_append.mp hk' with hm | hm
    · exact hinv k' hm
    · rw [List.mem_singleton, Prod.mk.injEq] at hm
      exact hm.2

theorem SubKindInv_guard_ne (g : Graph) (t : PyStr) (k : NodeKind) (s0 : PyStr)
    (hinv : SubKindInv g s0) (hne : t ≠ s0) :
    SubKindInv ((if has_node g t then g else add_node g t k) : Graph) s0 := by
  split
  · exact hinv
  · exact SubKindInv_add_node_ne g t k s0 hinv hne

theorem SubKindInv_guard_subtopic (g : Graph) (s : PyStr) (s0 : PyStr)
    (hinv : SubKindInv g s0) :
    SubKindInv ((if has_node g s then g else add_node g s .subtopic) : Graph) s0 := by
  split
  · exact hinv
  · exact SubKindInv_add_subtopic g s s0 hinv

theorem SubKindInv_add_edge (g : Graph) (x y : PyStr) (s0 : PyStr)
    (hinv : SubKindInv g s0) : SubKindInv (add_edge g x y) s0 := by
  intro k' hk'
  rw [add_edge_nodes] at hk'
  exact hinv k' hk'

theorem SubKindInv_step (g : Graph) (r : PyStr × PyStr) (s0 : PyStr)
    (hinv : SubKindInv g s0) (hid : r.1 ≠ s0)
    (htop : (parse_classification r.2).1 ≠ s0) :
    SubKindInv (show_mind_map_step g r) s0 := by
  unfold show_mind_map_step
  cases he : effective_subtopic r.2 with
  | none =>
    apply SubKindInv_add_edge
    apply SubKindInv_add_node_ne _ _ _ _ _ hid
    exact SubKindInv_guard_ne g _ _ s0 hinv htop
  | some s =>
    apply SubKindInv_add_edge
    apply SubKindInv_add_node_ne _ _ _ _ _ hid
    apply SubKindInv_add_edge
    apply SubKindInv_guard_subtopic
    exact SubKindInv_guard_ne g _ _ s0 hinv htop

theorem SubKindInv_fold (l : List (PyStr × PyStr)) (s0 : PyStr) :
    ∀ (g : Graph), SubKindInv g s0 → (∀ r ∈ l, r.1 ≠ s0) →
      (∀ r ∈ l, (parse_classification r.2).1 ≠ s0) →
      SubKindInv (l.foldl show_mind_map_step g) s0 := by
  induction l with
  | nil => intro g hg _ _; exact hg
  | cons r rest ih =>
    intro g hg hid htop
    exact ih _ (SubKindInv_step g r s0 hg (hid r (List.mem_cons_self r rest))
        (htop r (List.mem_cons_self r rest)))
      (fun r' hr' => hid r' (List.mem_cons_of_mem r hr'))
      (fun r' hr' => htop r' (List.mem_cons_of_mem r hr'))

theorem guard_subtopic_mem (g1 : Graph) (s0 : PyStr) (hinv : SubKindInv g1 s0) :
    (s0, NodeKind.subtopic) ∈
      ((if has_node g1 s0 then g1 else add_node g1 s0 .subtopic) : Graph).nodes := by
  split
  · rename_i hhas
    have hhas' : has_nodeL g1.nodes s0 = true := hhas
    rcases exists_kind_of_NodeMem g1 s0 ((has_nodeL_iff _ _).mp hhas') with ⟨k0, hk0⟩
    rw [hinv k0 hk0] at hk0
    exact hk0
  · rename_i hhas
    unfold add_node
    rw [if_neg hhas]
    exact List.mem_append_right _ (List.mem_singleton.mpr rfl)

theorem step_creates_subtopic (g : Graph) (r : PyStr × PyStr) (s0 : PyStr)
    (he : effective_subtopic r.2 = some s0)
    (hinv : SubKindInv g s0) (htop : (parse_classification r.2).1 ≠ s0)
    (hid : r.1 ≠ s0) :
    (s0, NodeKind.subtopic) ∈ (show_mind_map_step g r).nodes := by
  simp only [show_mind_map_step, he]
  rw [add_edge_nodes]
  apply add_node_entry_mem _ _ _ _ _ _ (Ne.symm hid)
  rw [add_edge_nodes]
  exact guard_subtopic_mem _ s0 (SubKindInv_guard_ne g _ _ s0 hinv htop)

theorem closestStep_none (n : PyStr) (d : ℚ) : closestStep n d none = some (n, d) := rfl

theorem closestStep_some (n : PyStr) (d : ℚ) (m : PyStr) (dm : ℚ) :
    closestStep n d (some (m, dm)) = if dm < d then some (m, dm) else some (n, d) := rfl

theorem on_click_scan_some (click : ℚ × ℚ) (l : List (PyStr × ℚ × ℚ)) :
    ∀ (m : PyStr) (dm : ℚ),
      on_click_scan click (some (m, dm)) l = closestStep m dm (closestAux click l) := by
  induction l with
  | nil => intro m dm; rfl
  | cons e rest ih =>
    obtain ⟨n, p⟩ := e
    intro m dm
    simp only [on_click_scan, closestAux]
    by_cases h1 : dist2 click p < dm
    · rw [if_pos h1, ih]
      cases hr : closestAux click rest with
      | none => simp [closestStep_none, closestStep_some, if_pos h1]
      | some pr =>
        obtain ⟨k, dk⟩ := pr
        by_cases h2 : dk < dist2 click p
        · have h3 : dk < dm := lt_trans h2 h1
          simp [closestStep_some, if_pos h2, if_pos h3]
        · simp [closestStep_some, if_neg h2, if_pos h1]
    · rw [if_neg h1, ih]
      cases hr : closestAux click rest with
      | none => simp [closestStep_none, closestStep_some, if_neg h1]
      | some pr =>
        obtain ⟨k, dk⟩ := pr
        by_cases h2 : dk < dist2 click p
        · simp [closestStep_some, if_pos h2]
        · have h3 : ¬ dk < dm := by
            have hpd : dist2 click p ≤ dk := not_lt.mp h2
            have hmd : dm ≤ dist2 click p := not_lt.mp h1
            exact not_lt.mpr (le_trans hmd hpd)
          simp [closestStep_some, if_neg h2, if_neg h1, if_neg h3]

theorem on_click_scan_none (click : ℚ × ℚ) (l : List (PyStr × ℚ × ℚ)) :
    on_click_scan click none l = closestAux click l := by
  cases l with
  | nil => rfl
  | cons e rest =>
    obtain ⟨n, p⟩ := e
    simp only [on_click_scan, closestAux]
    rw [on_click_scan_some]

theorem closestAux_eq_none_iff (click : ℚ × ℚ) (l : List (PyStr × ℚ × ℚ)) :
    closestAux click l = none ↔ l = [] := by
  cases l with
  | nil => simp [closestAux]
  | cons e rest =>
    obtain ⟨n, p⟩ := e
    simp only [closestAux]
    cases hr : closestAux click rest with
    | none => simp [closestStep_none]
    | some pr =>
      obtain ⟨k, dk⟩ := pr
      rw [closestStep_some]
      split <;> simp

theorem closestAux_min (click : ℚ × ℚ) (l : List (PyStr × ℚ × ℚ)) :
    ∀ (k : PyStr) (dk : ℚ), closestAux click l = some (k, dk) →
      ∀ q ∈ l, dk ≤ dist2 click q.2 := by
  induction l with
  | nil => intro k dk h; exact absurd h (by simp [closestAux])
  | cons e rest ih =>
    obtain ⟨n, p⟩ := e
    intro k dk h q hq
    simp only [closestAux] at h
    rcases List.mem_cons.mp hq with rfl | hq'
    · cases hr : closestAux click rest with
      | none =>
        rw [hr, closestStep_none] at h
        cases h
        exact le_refl _
      | some pr =>
        obtain ⟨k', dk'⟩ := pr
        rw [hr, closestStep_some] at h
        by_cases h2 : dk' < dist2 click p
        · rw [if_pos h2] at h
          cases h
          exact le_of_lt h2
        · rw [if_neg h2] at h
          cases h
          exact le_refl _
    · cases hr : closestAux click rest with
      | none =>
        rw [(closestAux_eq_none_iff click rest).mp hr] at hq'
        exact absurd hq' (List.not_mem_nil q)
      | some pr =>
        obtain ⟨k', dk'⟩ := pr
        rw [hr, closestStep_some] at h
        by_cases h2 : dk' < dist2 click p
        · rw [if_pos h2] at h
          cases h
          exact ih k dk hr q hq'
        · rw [if_neg h2] at h
          cases h
          exact le_trans (not_lt.mp h2) (ih k' dk' hr q hq')

theorem closestAux_decomp (click : ℚ × ℚ) (l : List (PyStr × ℚ × ℚ)) :
    ∀ (k : PyStr) (dk : ℚ), closestAux click l = some (k, dk) →
      ∃ p l1 l2, l = l1 ++ (k, p) :: l2 ∧ dk = dist2 click p ∧
        (∀ q ∈ l1, dk < dist2 click q.2) ∧ (∀ q ∈ l2, dk ≤ dist2 click q.2) := by
  induction l with
  | nil => intro k dk h; exact absurd h (by simp [closestAux])
  | cons e rest ih =>
    obtain ⟨n, p⟩ := e
    intro k dk h
    simp only [closestAux] at h
    cases hr : closestAux click rest with
    | none =>
      rw [hr, closestStep_none] at h
      cases h
      refine ⟨p, [], rest, rfl, rfl, ?_, ?_⟩
      · intro q hq
        exact absurd hq (List.not_mem_nil q)
      · intro q hq
        rw [(closestAux_eq_none_iff click rest).mp hr] at hq
        exact absurd hq (List.not_mem_nil q)
    | some pr =>
      obtain ⟨k', dk'⟩ := pr
      rw [hr, closestStep_some] at h
      by_cases h2 : dk' < dist2 click p
      · rw [if_pos h2] at h
        cases h
        rcases ih k dk hr with ⟨pk, r1, r2, hsplit, hd, hstrict, hle⟩
        refine ⟨pk, (n, p) :: r1, r2, by rw [hsplit, List.cons_append], hd, ?_, hle⟩
        intro q hq
        rcases List.mem_cons.mp hq with rfl | hq'
        · exact h2
        · exact hstrict q hq'
      · rw [if_neg h2] at h
        cases h
        refine ⟨p, [], rest, rfl, rfl, ?_, ?_⟩
        · intro q hq
          exact absurd hq (List.not_mem_nil q)
        · intro q hq
          exact le_trans (not_lt.mp h2) (closestAux_min click rest k' dk' hr q hq)

theorem closestAux_realized (click : ℚ × ℚ) (l : List (PyStr × ℚ × ℚ))
    (k : PyStr) (dk : ℚ) (h : closestAux click l = some (k, dk)) :
    ∃ q ∈ l, dist2 click q.2 = dk := by
  rcases closestAux_decomp click l k dk h with ⟨p, l1, l2, hsplit, hd, _, _⟩
  exact ⟨(k, p), by rw [hsplit]; exact List.mem_append_right _ (List.mem_cons_self _ _), hd.symm⟩

theorem closestAux_of_decomp (click : ℚ × ℚ) :
    ∀ (l1 : List (PyStr × ℚ × ℚ)) (k : PyStr) (p : ℚ × ℚ) (l2 : List (PyStr × ℚ × ℚ)),
      (∀ q ∈ l1, dist2 click p < dist2 click q.2) →
      (∀ q ∈ l2, dist2 click p ≤ dist2 click q.2) →
      closestAux click (l1 ++ (k, p) :: l2) = some (k, dist2 click p) := by
  intro l1
  induction l1 with
  | nil =>
    intro k p l2 _ hle
    simp only [List.nil_append, closestAux]
    cases hr : closestAux click l2 with
    | none => rw [closestStep_none]
    | some pr =>
      obtain ⟨k', dk'⟩ := pr
      rcases closestAux_realized click l2 k' dk' hr with ⟨q, hq, hdq⟩
      have hnl : ¬ dk' < dist2 click p := not_lt.mpr (hdq ▸ hle q hq)
      rw [closestStep_some, if_neg hnl]
  | cons e l1' ih =>
    obtain ⟨m, pm⟩ := e
    intro k p l2 hstrict hle
    simp only [List.cons_append, closestAux, List.append_eq]
    rw [ih k p l2 (fun q hq => hstrict q (List.mem_cons_of_mem _ hq)) hle]
    rw [closestStep_some, if_pos (hstrict (m, pm) (List.mem_cons_self _ _))]

theorem hit_test_some_iff (click : ℚ × ℚ) (pos : List (PyStr × ℚ × ℚ)) (thr2 : ℚ)
    (n : PyStr) :
    hit_test click pos thr2 = some n ↔
      ∃ p l1 l2, pos = l1 ++ (n, p) :: l2 ∧ dist2 click p < thr2 ∧
        (∀ q ∈ l1, dist2 click p < dist2 click q.2) ∧
        (∀ q ∈ l2, dist2 click p ≤ dist2 click q.2) := by
  cases hr : closestAux click pos with
  | none =>
    have hh : hit_test click pos thr2 = none := by
      unfold hit_test
      rw [on_click_scan_none, hr]
    rw [hh]
    constructor
    · intro h
      exact absurd h (by simp)
    · rintro ⟨p, l1, l2, hsplit, -, -, -⟩
      rw [(closestAux_eq_none_iff click pos).mp hr] at hsplit
      exact absurd hsplit.symm (List.append_ne_nil_of_right_ne_nil l1 (List.cons_ne_nil _ _))
  | some pr =>
    obtain ⟨k, dk⟩ := pr
    have hh : hit_test click pos thr2 = if dk < thr2 then some k else none := by
      unfold hit_test
      rw [on_click_scan_none, hr]
    rw [hh]
    constructor
    · intro h
      by_cases ht : dk < thr2
      · rw [if_pos ht] at h
        cases h
        rcases closestAux_decomp click pos n dk hr with ⟨p, l1, l2, hsplit, hd, hstrict, hle⟩
        subst hd
        exact ⟨p, l1, l2, hsplit, ht, hstrict, hle⟩
      · rw [if_neg ht] at h
        exact absurd h (by simp)
    · rintro ⟨p, l1, l2, hsplit, ht, hstrict, hle⟩
      have hc : closestAux click pos = some (n, dist2 click p) := by
        rw [hsplit]
        exact closestAux_of_decomp click l1 n p l2 hstrict hle
      rw [hr] at hc
      cases hc
      rw [if_pos ht]

theorem nodupKeys_eq (l : List (PyStr × NodeKind)) (h : (l.map Prod.fst).Nodup)
    (a : PyStr) (b c : NodeKind) (hb : (a, b) ∈ l) (hc : (a, c) ∈ l) : b = c := by
  induction l with
  | nil => exact absurd hb (List.not_mem_nil _)
  | cons p rest ih =>
    rw [List.map_cons, List.nodup_cons] at h
    rcases List.mem_cons.mp hb with rfl | hb' <;> rcases List.mem_cons.mp hc with hc' | hc'
    · exact (congrArg Prod.snd hc').symm
    · exact absurd (List.mem_map_of_mem Prod.fst hc') h.1
    · rw [← hc'] at h
      exact absurd (List.mem_map_of_mem Prod.fst hb') h.1
    · exact ih h.2 hb' hc'

theorem updateKind_notmem (l : List (PyStr × NodeKind)) (nid : PyStr) (k : NodeKind)
    (h : nid ∉ l.map Prod.fst) : updateKind l nid k = l := by
  induction l with
  | nil => rfl
  | cons p rest ih =>
    rw [List.map_cons, List.mem_cons] at h
    push_neg at h
    simp only [updateKind, List.map_cons]
    rw [if_neg (fun hp => h.1 hp.symm)]
    have := ih h.2
    unfold updateKind at this
    rw [this]

theorem updateKind_self (l : List (PyStr × NodeKind)) (nid : PyStr) (k : NodeKind)
    (hnd : (l.map Prod.fst).Nodup) (hm : (nid, k) ∈ l) : updateKind l nid k = l := by
  induction l with
  | nil => rfl
  | cons p rest ih =>
    rw [List.map_cons, List.nodup_cons] at hnd
    rcases List.mem_cons.mp hm with heq | hm'
    · subst heq
      simp only [updateKind, List.map_cons]
      rw [if_pos trivial]
      have hrest : nid ∉ rest.map Prod.fst := hnd.1
      have h2 := updateKind_notmem rest nid k hrest
      unfold updateKind at h2
      rw [h2]
    · have hp1 : p.1 ≠ nid := by
        intro hp
        apply hnd.1
        rw [hp]
        exact List.mem_map_of_mem Prod.fst hm'
      simp only [updateKind, List.map_cons]
      rw [if_neg hp1]
      have h2 := ih hnd.2 hm'
      unfold updateKind at h2
      rw [h2]

theorem lookupKind_updateKind (l : List (PyStr × NodeKind)) (nid : PyStr) (k : NodeKind)
    (h : has_nodeL l nid = true) : lookupKind (updateKind l nid k) nid = some k := by
  induction l with
  | nil => exact absurd h (by simp [has_nodeL])
  | cons p rest ih =>
    simp only [updateKind, List.map_cons]
    by_cases hc : p.1 = nid
    · rw [if_pos hc]
      simp only [lookupKind]
      rw [if_pos trivial]
    · rw [if_neg hc]
      simp only [lookupKind]
      rw [if_neg hc]
      unfold has_nodeL at h
      rw [if_neg hc] at h
      have h2 := ih h
      unfold updateKind at h2
      exact h2

theorem add_node_same_kind_noop (g : Graph) (nid : PyStr) (k : NodeKind)
    (hnd : (g.nodes.map Prod.fst).Nodup) (hm : (nid, k) ∈ g.nodes) : add_node g nid k = g := by
  unfold add_node
  rw [if_pos (show has_node g nid = true from
    (has_nodeL_iff _ _).mpr (List.mem_map_of_mem Prod.fst hm))]
  rw [updateKind_self g.nodes nid k hnd hm]

theorem add_node_conflict_overwrites (g : Graph) (nid : PyStr) (k' : NodeKind)
    (h : has_node g nid = true) :
    lookupKind (add_node g nid k').nodes nid = some k' := by
  unfold add_node
  rw [if_pos h]
  exact lookupKind_updateKind g.nodes nid k' h

theorem stripRightStep_nil (c : Char) :
    stripRightStep c [] = if pyIsSpace c then [] else [c] := rfl

theorem stripRightStep_cons (c x : Char) (xs : PyStr) :
    stripRightStep c (x :: xs) = c :: x :: xs := rfl

theorem stripRight_eq_nil_all_space (r : PyStr) (h : stripRight r = []) :
    ∀ x ∈ r, pyIsSpace x = true := by
  induction r with
  | nil => intro x hx; exact absurd hx (List.not_mem_nil x)
  | cons c cs ih =>
    simp only [stripRight] at h
    cases hs : stripRight cs with
    | nil =>
      rw [hs, stripRightStep_nil] at h
      by_cases hc : pyIsSpace c = true
      · intro x hx
        rcases List.mem_cons.mp hx with rfl | hx'
        · exact hc
        · exact ih hs x hx'
      · rw [if_neg hc] at h
        exact absurd h (List.cons_ne_nil c [])
    | cons y ys =>
      rw [hs, stripRightStep_cons] at h
      exact absurd h (List.cons_ne_nil c (y :: ys))

theorem all_of_dropWhile (p : Char → Bool) (l : PyStr)
    (h : ∀ x ∈ l.dropWhile p, p x = true) : ∀ x ∈ l, p x = true := by
  induction l with
  | nil => intro x hx; exact absurd hx (List.not_mem_nil x)
  | cons c cs ih =>
    by_cases hp : p c = true
    · rw [List.dropWhile_cons, if_pos hp] at h
      intro x hx
      rcases List.mem_cons.mp hx with rfl | hx'
      · exact hp
      · exact ih h x hx'
    · rw [List.dropWhile_cons, if_neg hp] at h
      exact h

theorem hasSep_eq_false_of_all_space (c : PyStr)
    (h : ∀ x ∈ c, pyIsSpace x = true) : hasSep c = false := by
  induction c with
  | nil => rfl
  | cons d cs ih =>
    unfold hasSep
    by_cases hd : d = '>'
    · have hsp : pyIsSpace '>' = true := hd ▸ h d (List.mem_cons_self d cs)
      exact absurd hsp (by decide)
    · rw [if_neg hd]
      exact ih (fun x hx => h x (List.mem_cons_of_mem d hx))

theorem hasSep_eq_false_of_strip_nil (c : PyStr) (h : strip c = []) :
    hasSep c = false := by
  unfold strip at h
  exact hasSep_eq_false_of_all_space c
    (all_of_dropWhile pyIsSpace c (stripRight_eq_nil_all_space _ h))

theorem hasSep_eq_false_of_not_mem (a : PyStr) (h : '>' ∉ a) : hasSep a = false := by
  induction a with
  | nil => rfl
  | cons c cs ih =>
    unfold hasSep
    rw [List.mem_cons] at h
    push_neg at h
    rw [if_neg (fun hc => h.1 hc.symm)]
    exact ih h.2

theorem hasSep_append (a b : PyStr) (h : '>' ∉ a) : hasSep (a ++ '>' :: b) = true := by
  induction a with
  | nil =>
    unfold hasSep
    rw [List.nil_append]
    exact if_pos rfl
  | cons c cs ih =>
    rw [List.cons_append]
    unfold hasSep
    rw [List.mem_cons] at h
    push_neg at h
    rw [if_neg (fun hc => h.1 hc.symm)]
    exact ih h.2

theorem split_first_append (a b : PyStr) (h : '>' ∉ a) :
    split_first (a ++ '>' :: b) = (a, b) := by
  induction a with
  | nil =>
    rw [List.nil_append]
    unfold split_first
    rw [if_pos rfl]
  | cons c cs ih =>
    rw [List.cons_append]
    unfold split_first
    rw [List.mem_cons] at h
    push_neg at h
    rw [if_neg (fun hc => h.1 hc.symm), ih h.2]

theorem parse_classification_append (a b : PyStr) (h : '>' ∉ a) :
    parse_classification (a ++ '>' :: b) = (strip a, some (strip b)) := by
  unfold parse_classification
  rw [if_pos (hasSep_append a b h), split_first_append a b h]

theorem parse_classification_nosep (a : PyStr) (h : '>' ∉ a) :
    parse_classification a = (if strip a = [] then uncategorized else strip a, none) := by
  unfold parse_classification
  rw [if_neg (show ¬ hasSep a = true by rw [hasSep_eq_false_of_not_mem a h]; exact Bool.false_ne_true)]

/-- Claim C2, counterexample: for the input mapping with the single record
`P` classified as `P`, the record node and its topic node are the same node
(the derived topic of classification `P` is the string `P` itself), so the
path between them has length 0, contradicting the claimed "never 0". -/
theorem c2_counterexample :
    ¬ (∀ r ∈ [(("P".data : PyStr), ("P".data : PyStr))],
        PathLen12 (show_mind_map_graph [("P".data, "P".data)])
          (parse_classification r.2).1 r.1) := by
  intro h
  exact (h ("P".data, "P".data) (List.mem_singleton.mpr rfl)).1 (by decide)

/-- Claim C2 (amended): for every input mapping and every record whose id
differs from its derived topic string, the record node is connected to its
topic node by a path of length exactly 1 or exactly 2 (never 0, never 3 or
more) in the built graph.  When the id equals the derived topic the two
nodes coincide (path length 0), as the counterexample shows. -/
theorem c2_record_within_two_edges (l : List (PyStr × PyStr)) (r : PyStr × PyStr)
    (hr : r ∈ l) (hne : r.1 ≠ (parse_classification r.2).1) :
    PathLen12 (show_mind_map_graph l) (parse_classification r.2).1 r.1 := by
  refine ⟨hne, ?_⟩
  cases he : effective_subtopic r.2 with
  | none =>
    refine Or.inl ((EdgeMem_build l (parse_classification r.2).1 r.1).mpr ⟨r, hr, ?_⟩)
    simp only [contribE, he]
    exact Or.inl ⟨rfl, rfl⟩
  | some s =>
    refine Or.inr ⟨s, (EdgeMem_build l (parse_classification r.2).1 s).mpr ⟨r, hr, ?_⟩,
      (EdgeMem_build l s r.1).mpr ⟨r, hr, ?_⟩⟩
    · simp only [contribE, he]
      exact Or.inl (Or.inl ⟨rfl, rfl⟩)
    · simp only [contribE, he]
      exact Or.inr (Or.inl ⟨rfl, rfl⟩)

/-- Witness for claim C2 at a concrete input. -/
theorem c2_witness :
    PathLen12 (show_mind_map_graph [("P1".data, "A>B".data)])
      (parse_classification "A>B".data).1 "P1".data :=
  c2_record_within_two_edges [("P1".data, "A>B".data)] ("P1".data, "A>B".data)
    (List.mem_singleton.mpr rfl) (by decide)

/-- Claim C3, counterexample: in the mapping where record `P1` has pair
`(A, B)` and a later record has id `B`, the unconditional patent
`add_node` overwrites the kind of node `B`, so the pair `(A, B)` ends with
no Subtopic-kind node at all. -/
theorem c3_counterexample :
    effective_subtopic "A>B".data = some "B".data ∧
    ("B".data, NodeKind.subtopic) ∉
      (show_mind_map_graph [("P1".data, "A>B".data), ("B".data, "C".data)]).nodes := by
  decide

/-- Claim C3 (amended): provided no record id and no derived topic string
collides with the subtopic string `s`, the built graph contains exactly one
node with id `s` (node ids are duplicate-free), that node has Subtopic
kind, and every record parsed to the pair `(t, s)` is connected to it, with
the edge `t`-`s` also present — so all records under the same pair share
the single subtopic node. -/
theorem c3_unique_shared_subtopic_node (l : List (PyStr × PyStr)) (r : PyStr × PyStr)
    (s : PyStr) (hr : r ∈ l) (hs : effective_subtopic r.2 = some s)
    (hid : ∀ q ∈ l, q.1 ≠ s) (htop : ∀ q ∈ l, (parse_classification q.2).1 ≠ s) :
    (s, NodeKind.subtopic) ∈ (show_mind_map_graph l).nodes ∧
    (∀ k, (s, k) ∈ (show_mind_map_graph l).nodes → k = NodeKind.subtopic) ∧
    ((show_mind_map_graph l).nodes.map Prod.fst).Nodup ∧
    EdgeMem (show_mind_map_graph l) (parse_classification r.2).1 s ∧
    EdgeMem (show_mind_map_graph l) s r.1 := by
  have hidr : r.1 ≠ s := hid r hr
  have htopr : (parse_classification r.2).1 ≠ s := htop r hr
  have hedge1 : EdgeMem (show_mind_map_graph l) (parse_classification r.2).1 s := by
    refine (EdgeMem_build l (parse_classification r.2).1 s).mpr ⟨r, hr, ?_⟩
    simp only [contribE, hs]
    exact Or.inl (Or.inl ⟨rfl, rfl⟩)
  have hedge2 : EdgeMem (show_mind_map_graph l) s r.1 := by
    refine (EdgeMem_build l s r.1).mpr ⟨r, hr, ?_⟩
    simp only [contribE, hs]
    exact Or.inr (Or.inl ⟨rfl, rfl⟩)
  obtain ⟨l1, l2, rfl⟩ := List.append_of_mem hr
  have hfold : show_mind_map_graph (l1 ++ r :: l2) =
      l2.foldl show_mind_map_step
        (show_mind_map_step (l1.foldl show_mind_map_step emptyGraph) r) := by
    unfold show_mind_map_graph
    rw [List.foldl_append, List.foldl_cons]
  have hid1 : ∀ q ∈ l1, q.1 ≠ s := fun q hq => hid q (List.mem_append_left _ hq)
  have hid2 : ∀ q ∈ l2, q.1 ≠ s :=
    fun q hq => hid q (List.mem_append_right _ (List.mem_cons_of_mem r hq))
  have htop1 : ∀ q ∈ l1, (parse_classification q.2).1 ≠ s :=
    fun q hq => htop q (List.mem_append_left _ hq)
  have htop2 : ∀ q ∈ l2, (parse_classification q.2).1 ≠ s :=
    fun q hq => htop q (List.mem_append_right _ (List.mem_cons_of_mem r hq))
  have hinv0 : SubKindInv emptyGraph s := fun k hk => absurd hk (List.not_mem_nil _)
  have hinv1 : SubKindInv (l1.foldl show_mind_map_step emptyGraph) s :=
    SubKindInv_fold l1 s emptyGraph hinv0 hid1 htop1
  refine ⟨?_, ?_, build_nodup _, hedge1, hedge2⟩
  · rw [hfold]
    exact fold_entry_mem l2 s NodeKind.subtopic _
      (step_creates_subtopic _ r s hs hinv1 htopr hidr) hid2
  · rw [hfold]
    exact SubKindInv_fold l2 s _ (SubKindInv_step _ r s hinv1 hidr htopr) hid2 htop2

/-- Witness for claim C3 at the two-record scenario with identical
classification `A>B`. -/
theorem c3_witness :
    ("B".data, NodeKind.subtopic) ∈
      (show_mind_map_graph [("P1".data, "A>B".data), ("P2".data, "A>B".data)]).nodes ∧
    (∀ k, ("B".data, k) ∈
        (show_mind_map_graph [("P1".data, "A>B".data), ("P2".data, "A>B".data)]).nodes →
      k = NodeKind.subtopic) ∧
    ((show_mind_map_graph [("P1".data, "A>B".data), ("P2".data, "A>B".data)]).nodes.map
      Prod.fst).Nodup ∧
    EdgeMem (show_mind_map_graph [("P1".data, "A>B".data), ("P2".data, "A>B".data)])
      (parse_classification "A>B".data).1 "B".data ∧
    EdgeMem (show_mind_map_graph [("P1".data, "A>B".data), ("P2".data, "A>B".data)])
      "B".data "P1".data :=
  c3_unique_shared_subtopic_node [("P1".data, "A>B".data), ("P2".data, "A>B".data)]
    ("P1".data, "A>B".data) "B".data (by decide) (by decide) (by decide) (by decide)

/-- Claim C4: for every classification string containing the separator,
written uniquely as `a ++ > :: b` with no separator in `a`, the parser
splits at that first occurrence only: the topic is the stripped left part
and the raw subtopic is the stripped remainder `b`, which keeps any further
separators and is never re-split. -/
theorem c4_split_at_first_separator (a b : PyStr) (h : '>' ∉ a) :
    parse_classification (a ++ '>' :: b) = (strip a, some (strip b)) :=
  parse_classification_append a b h

/-- Witness for claim C4: the classification ` A > B>C ` splits at the
first separator; the second separator stays inside the subtopic. -/
theorem c4_witness :
    ('>' ∉ (" A ".data : PyStr)) ∧
    parse_classification (" A ".data ++ '>' :: " B>C ".data) =
      ("A".data, some ("B>C".data)) :=
  ⟨by decide, (c4_split_at_first_separator " A ".data " B>C ".data (by decide)).trans (by decide)⟩

/-- Claim C5: a classification that is empty after stripping parses to the
topic `Uncategorized` with no subtopic (the builder is a total function, so
nothing is raised), and the input mapping `{P4 : ""}` builds exactly the
graph with nodes `Uncategorized` (topic kind) and `P4` (patent kind) and
the single edge `Uncategorized`-`P4`. -/
theorem c5_empty_classification_uncategorized :
    (∀ c : PyStr, strip c = [] → parse_classification c = (uncategorized, none)) ∧
    show_mind_map_graph [("P4".data, "".data)] =
      Graph.mk [(uncategorized, NodeKind.topic), ("P4".data, NodeKind.patent)]
        [(uncategorized, "P4".data)] := by
  constructor
  · intro c hc
    unfold parse_classification
    rw [if_neg (show ¬ hasSep c = true by
      rw [hasSep_eq_false_of_strip_nil c hc]; exact Bool.false_ne_true)]
    rw [if_pos hc]
  · decide

/-- Witness for claim C5 at the all-whitespace classification. -/
theorem c5_witness :
    strip "  ".data = ([] : PyStr) ∧
    parse_classification "  ".data = (uncategorized, none) ∧
    show_mind_map_graph [("P4".data, "".data)] =
      Graph.mk [(uncategorized, NodeKind.topic), ("P4".data, NodeKind.patent)]
        [(uncategorized, "P4".data)] :=
  ⟨by decide, c5_empty_classification_uncategorized.1 "  ".data (by decide),
    c5_empty_classification_uncategorized.2⟩

/-- Claim C6: hit-testing on an empty position map is a miss, and for every
click, position map and (squared) threshold, the result is `some n` exactly
when `n` occupies a position whose squared distance to the click is minimal
(`≤` all entries after it, `<` all entries before it, so exact ties go to
the node appearing first in iteration order) and strictly below the
threshold; otherwise the result is a miss. -/
theorem c6_hit_test_first_minimizer (click : ℚ × ℚ) (pos : List (PyStr × ℚ × ℚ))
    (thr2 : ℚ) :
    hit_test click [] thr2 = none ∧
    ∀ n, (hit_test click pos thr2 = some n ↔
      ∃ p l1 l2, pos = l1 ++ (n, p) :: l2 ∧ dist2 click p < thr2 ∧
        (∀ q ∈ l1, dist2 click p < dist2 click q.2) ∧
        (∀ q ∈ l2, dist2 click p ≤ dist2 click q.2)) :=
  ⟨rfl, fun n => hit_test_some_iff click pos thr2 n⟩

/-- Witness for claim C6: a click exactly on the only node hits it for any
positive threshold (here squared threshold 1). -/
theorem c6_witness :
    hit_test (0, 0) [("A".data, ((0 : ℚ), (0 : ℚ)))] 1 = some "A".data :=
  ((c6_hit_test_first_minimizer (0, 0) [("A".data, (0, 0))] 1).2 "A".data).mpr
    ⟨(0, 0), [], [], rfl, by norm_num [dist2],
      fun q hq => absurd hq (List.not_mem_nil q),
      fun q hq => absurd hq (List.not_mem_nil q)⟩

/-- Claim C7, counterexample: adding id `A` first with topic kind and then
with patent kind is not rejected; the kind is silently overwritten, and the
builder does exactly this for the mapping `{A : "A"}`. -/
theorem c7_counterexample :
    lookupKind (add_node emptyGraph "A".data NodeKind.topic).nodes "A".data =
      some NodeKind.topic ∧
    lookupKind (add_node (add_node emptyGraph "A".data NodeKind.topic)
      "A".data NodeKind.patent).nodes "A".data = some NodeKind.patent ∧
    show_mind_map_graph [("A".data, "A".data)] =
      Graph.mk [("A".data, NodeKind.patent)] [("A".data, "A".data)] := by
  decide

/-- Claim C7 (amended): adding an id already present with the same kind is
a no-op (given duplicate-free node ids), but adding an existing id with a
conflicting kind is not rejected: the networkx-style `add_node` silently
overwrites the stored kind. -/
theorem c7_add_node_existing (g : Graph) (nid : PyStr) :
    (∀ k, (g.nodes.map Prod.fst).Nodup → (nid, k) ∈ g.nodes → add_node g nid k = g) ∧
    (∀ k, has_node g nid = true → lookupKind (add_node g nid k).nodes nid = some k) :=
  ⟨fun k hnd hm => add_node_same_kind_noop g nid k hnd hm,
   fun k h => add_node_conflict_overwrites g nid k h⟩

/-- Witness for claim C7 on a one-node graph. -/
theorem c7_witness :
    add_node (Graph.mk [("A".data, NodeKind.topic)] []) "A".data NodeKind.topic =
      Graph.mk [("A".data, NodeKind.topic)] [] ∧
    lookupKind (add_node (Graph.mk [("A".data, NodeKind.topic)] [])
      "A".data NodeKind.patent).nodes "A".data = some NodeKind.patent :=
  ⟨(c7_add_node_existing (Graph.mk [("A".data, NodeKind.topic)] []) "A".data).1
      NodeKind.topic (by decide) (by decide),
   (c7_add_node_existing (Graph.mk [("A".data, NodeKind.topic)] []) "A".data).2
      NodeKind.patent (by decide)⟩

/-- Claim C8, counterexample: the two orderings of the mapping
`{P1 : "A>B", P2 : "B"}` build graphs whose node `B` carries different
kinds (subtopic in one order, topic in the other), so the graphs are not
structurally identical with kinds included. -/
theorem c8_counterexample :
    List.Perm [("P1".data, "A>B".data), ("P2".data, "B".data)]
      [("P2".data, "B".data), ("P1".data, "A>B".data)] ∧
    lookupKind (show_mind_map_graph
      [("P1".data, "A>B".data), ("P2".data, "B".data)]).nodes "B".data =
      some NodeKind.subtopic ∧
    lookupKind (show_mind_map_graph
      [("P2".data, "B".data), ("P1".data, "A>B".data)]).nodes "B".data =
      some NodeKind.topic :=
  ⟨List.Perm.swap _ _ _, by decide, by decide⟩

/-- Claim C8 (amended): building from any two permutations of the same
record mapping yields the same set of node ids and the same set of
undirected edges; only the kind labels can differ when one string occurs in
different roles (as the counterexample shows). -/
theorem c8_node_edge_sets_order_independent (l1 l2 : List (PyStr × PyStr))
    (hp : l1.Perm l2) :
    (∀ n, NodeMem (show_mind_map_graph l1) n ↔ NodeMem (show_mind_map_graph l2) n) ∧
    (∀ a b, EdgeMem (show_mind_map_graph l1) a b ↔ EdgeMem (show_mind_map_graph l2) a b) := by
  constructor
  · intro n
    rw [NodeMem_build, NodeMem_build]
    constructor
    · rintro ⟨r, hrm, hc⟩
      exact ⟨r, hp.mem_iff.mp hrm, hc⟩
    · rintro ⟨r, hrm, hc⟩
      exact ⟨r, hp.mem_iff.mpr hrm, hc⟩
  · intro a b
    rw [EdgeMem_build, EdgeMem_build]
    constructor
    · rintro ⟨r, hrm, hc⟩
      exact ⟨r, hp.mem_iff.mp hrm, hc⟩
    · rintro ⟨r, hrm, hc⟩
      exact ⟨r, hp.mem_iff.mpr hrm, hc⟩

/-- Witness for claim C8 on a two-record mapping and its swap. -/
theorem c8_witness :
    (NodeMem (show_mind_map_graph [("P1".data, "A>B".data), ("P3".data, "C".data)]) "A".data ↔
      NodeMem (show_mind_map_graph [("P3".data, "C".data), ("P1".data, "A>B".data)]) "A".data) ∧
    (EdgeMem (show_mind_map_graph [("P1".data, "A>B".data), ("P3".data, "C".data)])
        "B".data "P1".data ↔
      EdgeMem (show_mind_map_graph [("P3".data, "C".data), ("P1".data, "A>B".data)])
        "B".data "P1".data) :=
  ⟨(c8_node_edge_sets_order_independent _ _ (List.Perm.swap _ _ _)).1 _,
   (c8_node_edge_sets_order_independent _ _ (List.Perm.swap _ _ _)).2 _ _⟩

/-- Claim C9, counterexample: the classification `>` contains the separator
and its right part strips to empty, but it does not behave exactly as if
the separator were absent: the topic becomes the empty string, while the
separator-free classification (the empty string) gets `Uncategorized`. -/
theorem c9_counterexample :
    hasSep ">".data = true ∧ strip (split_first ">".data).2 = [] ∧
    show_mind_map_graph [("P".data, ">".data)] ≠
      show_mind_map_graph [("P".data, "".data)] := by
  decide

/-- Claim C9 (amended): for a classification `a ++ > :: b` whose right part
strips to empty, no subtopic is produced; and provided the stripped left
part is nonempty, one builder step behaves exactly as on the separator-free
classification `a` (the record is connected directly to the topic node). -/
theorem c9_empty_right_part (g : Graph) (rid : PyStr) (a b : PyStr)
    (ha : '>' ∉ a) (hb : strip b = []) :
    effective_subtopic (a ++ '>' :: b) = none ∧
    (strip a ≠ [] →
      show_mind_map_step g (rid, a ++ '>' :: b) = show_mind_map_step g (rid, a)) := by
  have hp := parse_classification_append a b ha
  have he1 : effective_subtopic (a ++ '>' :: b) = none := by
    unfold effective_subtopic
    rw [hp, hb]
    exact rfl
  refine ⟨he1, fun hsa => ?_⟩
  have he2 : effective_subtopic a = none := by
    unfold effective_subtopic
    rw [parse_classification_nosep a ha]
  have ht : (parse_classification (a ++ '>' :: b)).1 = (parse_classification a).1 := by
    rw [hp, parse_classification_nosep a ha, if_neg hsa]
  simp only [show_mind_map_step]
  rw [he1, he2, ht]

/-- Witness for claim C9 at classification `X>`. -/
theorem c9_witness :
    effective_subtopic ("X".data ++ '>' :: "".data) = none ∧
    show_mind_map_step emptyGraph ("P".data, "X".data ++ '>' :: "".data) =
      show_mind_map_step emptyGraph ("P".data, "X".data) :=
  ⟨(c9_empty_right_part emptyGraph "P".data "X".data "".data (by decide) (by decide)).1,
   (c9_empty_right_part emptyGraph "P".data "X".data "".data (by decide) (by decide)).2
     (by decide)⟩

/-- Claim C10: a click resolving within the threshold triggers the PDF load
and dialog close exactly when the resolved node has patent kind; when the
resolved node is of any other kind (topic or subtopic) the handler returns
`noAction`, leaving all state unchanged. -/
theorem c10_only_patent_click_acts (g : Graph) (pos : List (PyStr × ℚ × ℚ))
    (click : ℚ × ℚ) :
    (∀ n, on_click g pos click = ClickResult.mk (some n) true ↔
      (hit_test click pos (1 / 100) = some n ∧
        lookupKind g.nodes n = some NodeKind.patent)) ∧
    (∀ n, hit_test click pos (1 / 100) = some n →
      lookupKind g.nodes n ≠ some NodeKind.patent → on_click g pos click = noAction) := by
  cases hh : hit_test click pos (1 / 100) with
  | none =>
    have hoc : on_click g pos click = noAction := by
      unfold on_click
      rw [hh]
    constructor
    · intro n
      rw [hoc]
      constructor
      · intro habs
        have hload : noAction.loadPdf = some n := by rw [habs]
        exact absurd hload (by simp [noAction])
      · rintro ⟨h1, -⟩
        exact absurd h1 (by simp)
    · intro n h1 h2
      exact hoc
  | some m =>
    have hoc : on_click g pos click =
        if lookupKind g.nodes m = some NodeKind.patent then ClickResult.mk (some m) true
        else noAction := by
      unfold on_click
      rw [hh]
    by_cases hk : lookupKind g.nodes m = some NodeKind.patent
    · rw [if_pos hk] at hoc
      constructor
      · intro n
        rw [hoc]
        constructor
        · intro heq
          have hmn : m = n := Option.some.inj (congrArg ClickResult.loadPdf heq)
          subst hmn
          exact ⟨rfl, hk⟩
        · rintro ⟨h1, h2⟩
          have hmn : m = n := Option.some.inj h1
          subst hmn
          rfl
      · intro n h1 h2
        have hmn : m = n := Option.some.inj h1
        subst hmn
        exact absurd hk h2
    · rw [if_neg hk] at hoc
      constructor
      · intro n
        rw [hoc]
        constructor
        · intro habs
          have hload : noAction.loadPdf = some n := by rw [habs]
          exact absurd hload (by simp [noAction])
        · rintro ⟨h1, h2⟩
          have hmn : m = n := Option.some.inj h1
          subst hmn
          exact absurd h2 hk
      · intro n h1 h2
        exact hoc

/-- Witness for claim C10: the click resolves to the topic node `A`, which
is not patent-kind, so the handler does nothing. -/
theorem c10_witness :
    hit_test (0, 0) [("A".data, (0, 0)), ("P1".data, (1, 0))] (1 / 100) = some "A".data ∧
    lookupKind (show_mind_map_graph [("P1".data, "A".data)]).nodes "A".data ≠
      some NodeKind.patent ∧
    on_click (show_mind_map_graph [("P1".data, "A".data)])
      [("A".data, (0, 0)), ("P1".data, (1, 0))] (0, 0) = noAction := by
  have h1 : hit_test (0, 0) [("A".data, (0, 0)), ("P1".data, (1, 0))] (1 / 100) =
      some "A".data := by
    norm_num [hit_test, on_click_scan, dist2]
  have h2 : lookupKind (show_mind_map_graph [("P1".data, "A".data)]).nodes "A".data ≠
      some NodeKind.patent := by decide
  exact ⟨h1, h2,
    (c10_only_patent_click_acts (show_mind_map_graph [("P1".data, "A".data)])
      [("A".data, (0, 0)), ("P1".data, (1, 0))] (0, 0)).2 "A".data h1 h2⟩

end PatentX
